import Mathlib

/-!
Verification of the model-building layer of a CP-SAT wrapper library.

The definitions below are a shallow embedding of the Go sources:
`domain.go`, `intvar.go`, `model.go`, `result.go`, `options.go`,
`interval.go`, the constraint constructors, and the linear-expression
type.  Go `int64` values are modelled as `Int` together with an explicit
two's-complement wrap (`wrap64`) wherever the Go code performs `int64`
arithmetic that can overflow.  Functions that can panic in Go are
modelled as `Except String` with the panic message as the error.
-/

namespace Solver

/-- Largest Go `int64` value (`math.MaxInt64`). -/
def int64Max : Int := 9223372036854775807

/-- Smallest Go `int64` value (`math.MinInt64`). -/
def int64Min : Int := -9223372036854775808

/-- Two's-complement wrap-around of Go `int64` arithmetic: the value a Go
`int64` expression actually holds when its mathematical value is `x`. -/
def wrap64 (x : Int) : Int :=
  (x + 9223372036854775808) % 18446744073709551616 - 9223372036854775808

/-- Helper: whether an `Except` computation ended in an error (models a Go
panic having occurred). -/
def isErr {α : Type} : Except String α → Bool
  | .error _ => true
  | .ok _ => false

/-- Ordinal rendering ("1st", "2nd", "3rd", "4th", ...) used by the domain
error messages; mirrors the `humanize.Ordinal` dependency called from
`domain.go`. -/
def ordinal (x : Nat) : String :=
  let suffix :=
    if x % 10 = 1 ∧ x % 100 ≠ 11 then "st"
    else if x % 10 = 2 ∧ x % 100 ≠ 12 then "nd"
    else if x % 10 = 3 ∧ x % 100 ≠ 13 then "rd"
    else "th"
  toString x ++ suffix

/-- A `Domain` as in `domain.go`: the flattened boundary list
`[min_0, max_0, ..., min_(n-1), max_(n-1)]`. -/
structure Domain where
  intervals : List Int
deriving DecidableEq

/-- Error message of `NewDomain` for an interval with `min > max`
(`domain.go`). -/
def domainErrMinMax (idx : Nat) (mn mx : Int) : String :=
  "malformed domain: expected min <= max for " ++ ordinal idx ++
    " interval, found [" ++ toString mn ++ ", " ++ toString mx ++ "]"

/-- Error message of `NewDomain` for two adjacent intervals that are not
separated by a gap of at least two (`domain.go`). -/
def domainErrGap (prevIdx curIdx : Nat) (prevMax curMin : Int) : String :=
  "malformed domain: expected " ++ ordinal prevIdx ++
    " interval's max + 1 <  " ++ ordinal curIdx ++
    " interval's curMin, found [..., " ++ toString prevMax ++ "] [" ++
    toString curMin ++ ", ...]"

/-- The validation loop of `NewDomain` (`domain.go`): walks the flattened
boundary list two entries at a time; `idx` is the 1-based ordinal of the
current interval and `prev` the previous interval's max, if any.  The
`prevMax + 1` comparison is Go `int64` addition, hence `wrap64`. -/
def validateIntervals : Nat → Option Int → List Int → Except String Unit
  | _, _, [] => .ok ()
  | idx, prev, mn :: mx :: rest =>
    if ¬ (mn ≤ mx) then .error (domainErrMinMax idx mn mx)
    else
      match prev with
      | none => validateIntervals (idx + 1) (some mx) rest
      | some pmax =>
        if ¬ (wrap64 (pmax + 1) < mn) then .error (domainErrGap (idx - 1) idx pmax mn)
        else validateIntervals (idx + 1) (some mx) rest
  | _, _, [_] => .ok ()

/-- `NewDomain` (`domain.go`): builds the flattened interval list
`[lb, ub] ++ ds` and validates it, panicking (here: `.error`) on an odd
extra-boundary list, an interval with `min > max`, or two adjacent
intervals not separated by a gap of at least two. -/
def NewDomain (lb ub : Int) (ds : List Int) : Except String Domain :=
  if ds.length % 2 ≠ 0 then
    .error "malformed domain: expected even number of interval boundaries"
  else
    match validateIntervals 1 none ([lb, ub] ++ ds) with
    | .error e => .error e
    | .ok _ => .ok ⟨[lb, ub] ++ ds⟩

/-- The loop body of `domain.list` (`domain.go`): every bound is shifted by
`-shift` (Go `int64` subtraction, hence `wrap64`) except bounds equal to
`math.MaxInt64`, which pass through unshifted. -/
def listLoop (shift : Int) : List Int → List Int
  | [] => []
  | v :: rest =>
    (if v = int64Max then v else wrap64 (v - shift)) :: listLoop shift rest

/-- `domain.list` (`domain.go`). -/
def Domain.list (d : Domain) (shift : Int) : List Int :=
  listLoop shift d.intervals

/-- The interval list grouped into `(min, max)` pairs, used to state the
domain invariants. -/
def toPairs : List Int → List (Int × Int)
  | a :: b :: rest => (a, b) :: toPairs rest
  | _ => []

/-- The required separation between two adjacent domain intervals, as the
code checks it (`prevMax + 1 < curMin` in `int64` arithmetic). -/
def gapOk (p q : Int × Int) : Prop := wrap64 (p.2 + 1) < q.1

instance (p q : Int × Int) : Decidable (gapOk p q) := by
  unfold gapOk; infer_instance

/-- The wire representation of a variable (`pb.IntegerVariableProto`): a
name and a flattened domain boundary list. -/
structure IntegerVariableProto where
  name : String
  domain : List Int
deriving DecidableEq

/-- The `intVar` struct of `intvar.go`: the wire proto, the variable's
index, its domain, and the literal/constant flags.  The Go `int32` index
is modelled as `Int`. -/
structure intVar where
  pb : IntegerVariableProto
  idx : Int
  d : Domain
  isLiteral : Bool
  isConst : Bool
deriving DecidableEq

/-- `newIntVar` (`intvar.go`). -/
def newIntVar (d : Domain) (idx : Int) (isLiteral isConst : Bool) (name : String) : intVar :=
  { pb := { name := name, domain := d.list 0 },
    idx := idx, d := d, isLiteral := isLiteral, isConst := isConst }

/-- `intVar.name` (`intvar.go`): the proto name, or `"<unnamed>"` when
empty. -/
def intVar.name (i : intVar) : String :=
  if i.pb.name = "" then "<unnamed>" else i.pb.name

/-- `intVar.index` (`intvar.go`). -/
def intVar.index (i : intVar) : Int := i.idx

/-- `intVar.isNegated` (`intvar.go`): a literal handle is negated iff its
index is negative. -/
def intVar.isNegated (i : intVar) : Bool := i.idx < 0

/-- `intVar.Not` (`intvar.go`): a fresh handle (never appended to any
model) whose index is `-idx - 1` and whose name is the original's display
name with a `~` in front. -/
def intVar.Not (i : intVar) : intVar :=
  { pb := { name := "~" ++ i.name, domain := i.d.list 0 },
    idx := -i.idx - 1, d := i.d, isLiteral := false, isConst := false }

/-- `intVarList.indexes` (`intvar.go`). -/
def indexes (vs : List intVar) : List Int := vs.map intVar.index

/-- The wire representation of a linear expression
(`pb.LinearExpressionProto`). -/
structure LinearExpressionProto where
  vars : List Int
  coeffs : List Int
  offset : Int
deriving DecidableEq

/-- The `linearExpr` struct of `linearexpr.go` (the held `[]IntVar` is kept
only for `String()` and is omitted). -/
structure linearExpr where
  pb : LinearExpressionProto
deriving DecidableEq

/-- `NewLinearExpr` (`linearexpr.go`). -/
def NewLinearExpr (vars : List intVar) (coeffs : List Int) (offset : Int) : linearExpr :=
  ⟨{ vars := indexes vars, coeffs := coeffs, offset := offset }⟩

/-- `Sum` (`linearexpr.go`): all coefficients one, offset zero. -/
def Sum (vars : List intVar) : linearExpr :=
  NewLinearExpr vars (vars.map (fun _ => 1)) 0

/-- `linearExpr.vars` (`linearexpr.go`). -/
def linearExpr.vars (l : linearExpr) : List Int := l.pb.vars

/-- `linearExpr.coeffs` (`linearexpr.go`). -/
def linearExpr.coeffs (l : linearExpr) : List Int := l.pb.coeffs

/-- `linearExpr.offset` (`linearexpr.go`). -/
def linearExpr.offset (l : linearExpr) : Int := l.pb.offset

/-- The oneof cases of `pb.ConstraintProto` used by the constraint
constructors of `constraint.go` (the variants the claims touch, plus a
sample of the others: boolean, table, arithmetic, element, interval). -/
inductive ConstraintOneof
  | allDiff (vars : List Int)
  | boolOr (literals : List Int)
  | boolAnd (literals : List Int)
  | boolXor (literals : List Int)
  | atMostOne (literals : List Int)
  | exactlyOne (literals : List Int)
  | linear (vars : List Int) (coeffs : List Int) (domain : List Int)
  | intMax (target : Int) (vars : List Int)
  | intMin (target : Int) (vars : List Int)
  | intDiv (target : Int) (vars : List Int)
  | intProd (target : Int) (vars : List Int)
  | element (target : Int) (index : Int) (vars : List Int)
  | table (vars : List Int) (values : List Int) (negated : Bool)
  | intervalC (start : Int) (endVar : Int) (size : Int)
deriving DecidableEq

/-- The wire representation of a constraint (`pb.ConstraintProto`): a
name, the enforcement-literal index list, and the oneof payload. -/
structure ConstraintProto where
  name : String
  enforcementLiteral : List Int
  oneof : ConstraintOneof
deriving DecidableEq

/-- Helper for the constructors of `constraint.go`, all of which build a
proto with no name and no enforcement literals. -/
def mkConstraint (o : ConstraintOneof) : ConstraintProto :=
  { name := "", enforcementLiteral := [], oneof := o }

/-- `NewAllDifferentConstraint` (`constraint.go`). -/
def NewAllDifferentConstraint (vars : List intVar) : ConstraintProto :=
  mkConstraint (.allDiff (indexes vars))

/-- `NewBooleanOrConstraint` (`constraint.go`). -/
def NewBooleanOrConstraint (literals : List intVar) : ConstraintProto :=
  mkConstraint (.boolOr (indexes literals))

/-- `NewBooleanAndConstraint` (`constraint.go`). -/
def NewBooleanAndConstraint (literals : List intVar) : ConstraintProto :=
  mkConstraint (.boolAnd (indexes literals))

/-- `NewBooleanXorConstraint` (`constraint.go`). -/
def NewBooleanXorConstraint (literals : List intVar) : ConstraintProto :=
  mkConstraint (.boolXor (indexes literals))

/-- `newAtMostOneConstraint` (`constraint.go`): the At-Most-One primitive
encoding. -/
def newAtMostOneConstraint (literals : List intVar) : ConstraintProto :=
  mkConstraint (.atMostOne (indexes literals))

/-- `newExactlyOneConstraint` (`constraint.go`): the Exactly-One primitive
encoding. -/
def newExactlyOneConstraint (literals : List intVar) : ConstraintProto :=
  mkConstraint (.exactlyOne (indexes literals))

/-- `NewMaximumConstraint` (`constraint.go`): target equals the maximum of
the listed variables. -/
def NewMaximumConstraint (target : intVar) (vars : List intVar) : ConstraintProto :=
  mkConstraint (.intMax target.index (indexes vars))

/-- `NewElementConstraint` (`constraint.go`). -/
def NewElementConstraint (target index : intVar) (vars : List intVar) : ConstraintProto :=
  mkConstraint (.element target.index index.index (indexes vars))

/-- `NewLinearConstraint` (`constraint.go`): the domain is encoded re-based
by the expression's offset, via `domain.list(e.offset())`. -/
def NewLinearConstraint (e : linearExpr) (d : Domain) : ConstraintProto :=
  mkConstraint (.linear e.vars e.coeffs (d.list e.offset))

/-- The chain built by `NewAllSameConstraint` (`constraint.go`): one
`NewMaximumConstraint(vars[i-1], vars[i])` per adjacent pair. -/
def allSameChain : List intVar → List ConstraintProto
  | a :: b :: rest => NewMaximumConstraint a [b] :: allSameChain (b :: rest)
  | _ => []

/-- `NewAllSameConstraint` (`constraint.go`) as its `protos()` expansion:
the composite `constraints` value flattens to exactly this list. -/
def NewAllSameConstraint (vars : List intVar) : List ConstraintProto :=
  allSameChain vars

/-- `NewAtMostKConstraint` (`constraint.go`): `k == 1` specializes to the
At-Most-One primitive; otherwise a linear constraint over the sum of the
literals against `NewDomain(0, k)` (whose panic is the error case). -/
def NewAtMostKConstraint (k : Int) (literals : List intVar) : Except String ConstraintProto :=
  if k = 1 then .ok (newAtMostOneConstraint literals)
  else (NewDomain 0 k []).map (fun d => NewLinearConstraint (Sum literals) d)

/-- `NewAtLeastKConstraint` (`constraint.go`): `k == 1` specializes to
Boolean-Or; otherwise a linear constraint against
`NewDomain(k, len(literals))`. -/
def NewAtLeastKConstraint (k : Int) (literals : List intVar) : Except String ConstraintProto :=
  if k = 1 then .ok (NewBooleanOrConstraint literals)
  else (NewDomain k literals.length []).map (fun d => NewLinearConstraint (Sum literals) d)

/-- `NewExactlyKConstraint` (`constraint.go`): `k == 1` specializes to
Exactly-One; otherwise a linear constraint against `NewDomain(k, k)`. -/
def NewExactlyKConstraint (k : Int) (literals : List intVar) : Except String ConstraintProto :=
  if k = 1 then .ok (newExactlyOneConstraint literals)
  else (NewDomain k k []).map (fun d => NewLinearConstraint (Sum literals) d)

/-- `constraint.OnlyEnforceIf` (`constraint.go`): unconditionally
overwrites the proto's enforcement-literal index list with the given
literals' indexes and returns the constraint; there is no error path and
no check of the constraint's kind. -/
def ConstraintProto.OnlyEnforceIf (c : ConstraintProto) (literals : List intVar) : ConstraintProto :=
  { c with enforcementLiteral := indexes literals }

/-- The `interval` struct of `interval.go`: the wire proto, the
constraint index, the three defining variables, and the optional single
enforcement literal (the Go field `end` is `endVar` here). -/
structure interval where
  pb : ConstraintProto
  idx : Int
  start : intVar
  endVar : intVar
  size : intVar
  enforcement : Option intVar
deriving DecidableEq

/-- `newInterval` (`interval.go`). -/
def newInterval (start endVar size : intVar) (idx : Int) (name : String) : interval :=
  { pb := { name := name, enforcementLiteral := [],
            oneof := .intervalC start.index endVar.index size.index },
    idx := idx, start := start, endVar := endVar, size := size, enforcement := none }

/-- `interval.OnlyEnforceIf` (`interval.go`): panics when given more than
one literal; otherwise sets the proto's enforcement-literal list and, when
exactly one literal is given, records it. -/
def interval.OnlyEnforceIf (i : interval) (literals : List intVar) : Except String interval :=
  if literals.length > 1 then .error "intervals can only be enforced with a single literal"
  else .ok { i with
    pb := { i.pb with enforcementLiteral := indexes literals },
    enforcement := if literals.length = 1 then literals.head? else i.enforcement }

/-- The wire representation of the objective (`pb.CpObjectiveProto`).  The
Go proto stores `Offset` and `ScalingFactor` as `float64`; the values the
model writes there are an exact `int64` cast and the constants `0`/`-1`,
whose negation is exact in floating point, so both are modelled as `Int`.
An absent scaling factor is the proto default `0`. -/
structure CpObjectiveProto where
  vars : List Int
  coeffs : List Int
  offset : Int
  scalingFactor : Int
deriving DecidableEq

/-- The `Model` struct of `model.go`, reduced to the wire proto it
accumulates (`pb.CpModelProto`): name, variable list, constraint list and
optional objective.  The Go-side mirror slices (`vars`, `constants`,
`literals`, `intervals`, `constraints`, `objective`, `minimize`) exist
only for `String()` and are omitted. -/
structure Model where
  name : String
  Variables : List IntegerVariableProto
  constraints : List ConstraintProto
  objective : Option CpObjectiveProto
deriving DecidableEq

/-- `NewModel` (`model.go`). -/
def NewModel (name : String) : Model :=
  { name := name, Variables := [], constraints := [], objective := none }

/-- `Model.newIntVarFromDomainInternal` (`model.go`): the new variable's
index is the number of variables already in the proto, and exactly one
variable proto is appended. -/
def Model.newIntVarFromDomainInternal
    (m : Model) (d : Domain) (isLiteral isConst : Bool) (name : String) : intVar × Model :=
  let idx : Int := m.Variables.length
  let iv := newIntVar d idx isLiteral isConst name
  (iv, { m with Variables := m.Variables ++ [iv.pb] })

/-- `Model.NewIntVarFromDomain` (`model.go`). -/
def Model.NewIntVarFromDomain (m : Model) (d : Domain) (name : String) : intVar × Model :=
  m.newIntVarFromDomainInternal d false false name

/-- `Model.NewIntVar` (`model.go`): goes through `NewDomain(lb, ub)`,
whose panic is the error case. -/
def Model.NewIntVar (m : Model) (lb ub : Int) (name : String) : Except String (intVar × Model) :=
  (NewDomain lb ub []).map (fun d => m.NewIntVarFromDomain d name)

/-- `Model.NewLiteral` (`model.go`): a variable over `NewDomain(0, 1)`
with the literal flag set. -/
def Model.NewLiteral (m : Model) (name : String) : Except String (intVar × Model) :=
  (NewDomain 0 1 []).map (fun d => m.newIntVarFromDomainInternal d true false name)

/-- `Model.NewConstant` (`model.go`): a variable over `NewDomain(c, c)`
with the constant flag set. -/
def Model.NewConstant (m : Model) (c : Int) (name : String) : Except String (intVar × Model) :=
  (NewDomain c c []).map (fun d => m.newIntVarFromDomainInternal d false true name)

/-- `Model.NewInterval` (`model.go` and `interval.go`): records the
interval at the next constraint index and appends its single proto;
no variable is appended. -/
def Model.NewInterval (m : Model) (start endVar size : intVar) (name : String) : interval × Model :=
  let idx : Int := m.constraints.length
  let itv := newInterval start endVar size idx name
  (itv, { m with constraints := m.constraints ++ [itv.pb] })

/-- `Model.addConstraintsInternal` (`model.go`): appends each constraint's
`protos()` expansion in order (a `Constraint` argument is represented by
that expansion, a `List ConstraintProto`). -/
def Model.addConstraintsInternal (m : Model) (cs : List (List ConstraintProto)) : Model :=
  { m with constraints := m.constraints ++ cs.flatten }

/-- `Model.AddConstraints` (`model.go`). -/
def Model.AddConstraints (m : Model) (cs : List (List ConstraintProto)) : Model :=
  m.addConstraintsInternal cs

/-- `Model.toObjectiveProto` (`model.go`): vars, coefficients and offset
of the expression, scaling factor left at the proto default. -/
def Model.toObjectiveProto (_ : Model) (e : linearExpr) : CpObjectiveProto :=
  { vars := e.vars, coeffs := e.coeffs, offset := e.offset, scalingFactor := 0 }

/-- `Model.Minimize` (`model.go`). -/
def Model.Minimize (m : Model) (e : linearExpr) : Model :=
  { m with objective := some (m.toObjectiveProto e) }

/-- `Model.Maximize` (`model.go`): starts from `toObjectiveProto`, negates
every coefficient (Go `int64` negation, hence `wrap64`) and the offset,
and sets the scaling factor to `-1`. -/
def Model.Maximize (m : Model) (e : linearExpr) : Model :=
  let proto := m.toObjectiveProto e
  let proto := { proto with
    coeffs := proto.coeffs.map (fun c => wrap64 (-c)),
    offset := -proto.offset,
    scalingFactor := -1 }
  { m with objective := some proto }

/-- The `Result` struct of `result.go`, reduced to the response fields the
claims touch: the raw status code, the flat solution vector, and the
engine-reported objective value. -/
structure Result where
  status : Int
  solution : List Int
  objectiveValue : Int
deriving DecidableEq

/-- `Result.Value` (`result.go`): `solution[iv.index()]`; a negative or
out-of-range index panics in Go, modelled as `none`. -/
def Result.Value (r : Result) (iv : intVar) : Option Int :=
  if iv.index < 0 then none else r.solution.get? iv.index.toNat

/-- `Result.BooleanValue` (`result.go`): a negated handle reads its
positive counterpart's slot and compares with `0`; a positive handle
compares its own slot with `1`. -/
def Result.BooleanValue (r : Result) (l : intVar) : Option Bool :=
  if l.isNegated then (r.Value l.Not).map (fun v => v == 0)
  else (r.Value l).map (fun v => v == 1)

/-- The `SatParameters` fields `options.validate` reads (`options.go`);
the proto's optional fields default to `false` and `0`. -/
structure SatParameters where
  enumerateAllSolutions : Bool
  numSearchWorkers : Int
deriving DecidableEq

/-- The `options` struct of `options.go`, reduced to the parameters
(logger and callback are engine-side plumbing). -/
structure options where
  params : SatParameters
deriving DecidableEq

/-- `options.validate` (`options.go`): rejects enumeration combined with
more than one search worker, with a descriptive error; accepts everything
else. -/
def options.validate (o : options) : Except String Bool :=
  if o.params.enumerateAllSolutions = true ∧ o.params.numSearchWorkers > 1 then
    .error "cannot enumerate with parallelism > 1"
  else .ok true

/-- Modelled from the spec: the options-consuming `Model.Solve` entry
point is not among the provided sources (only `options.validate` is).
Per the spec, option validation runs before the engine is invoked, and a
validation failure is returned as a descriptive error without invoking
the engine; the engine itself is an opaque function. -/
def solveWithOptions (engine : Model → Result) (m : Model) (o : options) : Except String Result :=
  match o.validate with
  | .error e => .error e
  | .ok _ => .ok (engine m)

/-- Solution lookup by encoded variable index, used by the spec-modelled
engine objective evaluation. -/
def lookupSolution (sol : List Int) (idx : Int) : Int :=
  sol.getD idx.toNat 0

/-- Dot product of an objective's variable-index and coefficient lists
against a solution vector. -/
def dot : List Int → List Int → List Int → Int
  | v :: vs, c :: cs, sol => c * lookupSolution sol v + dot vs cs sol
  | _, _, _ => 0

/-- The value of a linear expression at a solution vector:
`sum(coeffs[i] * sol[vars[i]]) + offset`. -/
def evalLinearExpr (e : linearExpr) (sol : List Int) : Int :=
  dot e.vars e.coeffs sol + e.offset

/-- Modelled from the spec: the external engine's reported objective value
(`CpSolverResponse.objective_value`, read by `Result.ObjectiveValue`) is
not computed in this repository.  Per the spec the objective proto
encodes minimize-or-maximize via its scaling factor, and the reported
value is the encoded linear objective evaluated at the solution, scaled
by the scaling factor when one is set. -/
def engineObjectiveValue (o : CpObjectiveProto) (sol : List Int) : Int :=
  let inner := dot o.vars o.coeffs sol + o.offset
  if o.scalingFactor = 0 then inner else o.scalingFactor * inner

/-- The model-mutating builder calls, for stating append-only index
stability: each constructor is one public `Model` method of `model.go`. -/
inductive ModelOp
  | newIntVarFromDomainOp (d : Domain) (name : String)
  | newIntVarOp (lb ub : Int) (name : String)
  | newConstantOp (c : Int) (name : String)
  | newLiteralOp (name : String)
  | newIntervalOp (start endVar size : intVar) (name : String)
  | addConstraintsOp (cs : List (List ConstraintProto))
  | minimizeOp (e : linearExpr)
  | maximizeOp (e : linearExpr)

/-- Runs one builder call against a model, keeping only the model (the
handle a call returns is a pure value); an error is a Go panic. -/
def applyOp (m : Model) : ModelOp → Except String Model
  | .newIntVarFromDomainOp d n => .ok (m.NewIntVarFromDomain d n).2
  | .newIntVarOp lb ub n => (m.NewIntVar lb ub n).map Prod.snd
  | .newConstantOp c n => (m.NewConstant c n).map Prod.snd
  | .newLiteralOp n => (m.NewLiteral n).map Prod.snd
  | .newIntervalOp s e sz n => .ok (m.NewInterval s e sz n).2
  | .addConstraintsOp cs => .ok (m.AddConstraints cs)
  | .minimizeOp e => .ok (m.Minimize e)
  | .maximizeOp e => .ok (m.Maximize e)

/-- Runs a sequence of builder calls left to right, stopping at the first
panic. -/
def applyOps (m : Model) : List ModelOp → Except String Model
  | [] => .ok m
  | op :: rest =>
    match applyOp m op with
    | .error e => .error e
    | .ok m' => applyOps m' rest

/-- Condition linking the previous interval's max carried by
`validateIntervals` to the first of the remaining pairs. -/
def prevOk : Option Int → List (Int × Int) → Prop
  | none, _ => True
  | some _, [] => True
  | some pm, q :: _ => wrap64 (pm + 1) < q.1

/-- Satisfaction of a maximum-equality constraint with target index `t`
and operand indices `vs` at a solution vector: the target's value is the
maximum of the operands' values. -/
def intMaxSat (sol : List Int) (t : Int) (vs : List Int) : Prop :=
  (∃ v ∈ vs, lookupSolution sol v = lookupSolution sol t) ∧
  ∀ v ∈ vs, lookupSolution sol v ≤ lookupSolution sol t

instance (sol : List Int) (t : Int) (vs : List Int) : Decidable (intMaxSat sol t vs) := by
  unfold intMaxSat; infer_instance

/-!
Helper lemmas, then one theorem (with witness or counterexample where
required) per claim.
-/

/-- Arithmetic on in-range values is unaffected by the `int64` wrap. -/
theorem wrap64_eq_self (x : Int) (h1 : int64Min ≤ x) (h2 : x ≤ int64Max) :
    wrap64 x = x := by
  unfold int64Min at h1
  unfold int64Max at h2
  unfold wrap64
  rw [Int.emod_eq_of_lt (by omega) (by omega)]
  omega

/-- The display name of a negated handle is the original display name
prefixed with a tilde (a tilde-prefixed proto name is never empty). -/
theorem name_of_not (i : intVar) : i.Not.name = "~" ++ i.name := by
  have h : ("~" ++ i.name) ≠ "" := by
    intro hc
    have h2 := congrArg String.length hc
    rw [String.length_append] at h2
    have h3 : ("~" : String).length = 1 := rfl
    have h4 : ("" : String).length = 0 := rfl
    omega
  show (if ("~" ++ i.name) = "" then "<unnamed>" else ("~" ++ i.name)) = "~" ++ i.name
  rw [if_neg h]

/-- Double negation restores the raw index. -/
theorem not_not_idx (l : intVar) : l.Not.Not.idx = l.idx := by
  simp [intVar.Not]

/-- Single negation maps index `i` to `-i - 1`. -/
theorem not_idx (l : intVar) : l.Not.idx = -l.idx - 1 := rfl

/-- `Result.Value` depends only on the handle index. -/
theorem value_congr (r : Result) (a b : intVar) (h : a.idx = b.idx) :
    r.Value a = r.Value b := by
  simp [Result.Value, intVar.index, h]

/-- The `NewDomain` validation loop succeeds exactly when every interval
has `min <= max`, adjacent intervals are separated per `gapOk`, and the
carried previous max (if any) is separated from the first interval. -/
theorem validateIntervals_ok_iff : ∀ (k : Nat) (prev : Option Int) (l : List Int),
    isErr (validateIntervals k prev l) = false ↔
      ((∀ p ∈ toPairs l, p.1 ≤ p.2) ∧ List.Chain' gapOk (toPairs l) ∧ prevOk prev (toPairs l))
  | _, prev, [] => by
    cases prev <;> simp [validateIntervals, toPairs, isErr, prevOk]
  | _, prev, [a] => by
    cases prev <;> simp [validateIntervals, toPairs, isErr, prevOk]
  | k, prev, a :: b :: rest => by
    have ih := validateIntervals_ok_iff (k + 1) (some b) rest
    have htp : toPairs (a :: b :: rest) = (a, b) :: toPairs rest := rfl
    rw [htp]
    by_cases hab : a ≤ b
    · cases prev with
      | none =>
        rw [validateIntervals, if_neg (by simpa using hab)]
        rw [ih]
        simp only [List.chain'_cons', List.forall_mem_cons, prevOk]
        constructor
        · rintro ⟨h1, h2, h3⟩
          refine ⟨⟨hab, h1⟩, ⟨?_, h2⟩, trivial⟩
          intro q hq
          cases hrest : toPairs rest with
          | nil => simp [hrest] at hq
          | cons q0 qs =>
            rw [hrest] at hq
            simp at hq
            subst hq
            simpa [prevOk, hrest, gapOk] using h3
        · rintro ⟨⟨_, h1⟩, ⟨hh, h2⟩, -⟩
          refine ⟨h1, h2, ?_⟩
          cases hrest : toPairs rest with
          | nil => simp [prevOk, hrest]
          | cons q0 qs =>
            have := hh q0 (by simp [hrest])
            simpa [prevOk, hrest, gapOk] using this
      | some pm =>
        rw [validateIntervals, if_neg (by simpa using hab)]
        by_cases hgap : wrap64 (pm + 1) < a
        · rw [if_neg (by simpa using hgap)]
          rw [ih]
          simp only [List.chain'_cons', List.forall_mem_cons, prevOk]
          constructor
          · rintro ⟨h1, h2, h3⟩
            refine ⟨⟨hab, h1⟩, ⟨?_, h2⟩, hgap⟩
            intro q hq
            cases hrest : toPairs rest with
            | nil => simp [hrest] at hq
            | cons q0 qs =>
              rw [hrest] at hq
              simp at hq
              subst hq
              simpa [prevOk, hrest, gapOk] using h3
          · rintro ⟨⟨_, h1⟩, ⟨hh, h2⟩, -⟩
            refine ⟨h1, h2, ?_⟩
            cases hrest : toPairs rest with
            | nil => simp [prevOk, hrest]
            | cons q0 qs =>
              have := hh q0 (by simp [hrest])
              simpa [prevOk, hrest, gapOk] using this
        · rw [if_pos (by simpa using hgap)]
          simp only [isErr, prevOk]
          constructor
          · intro h; exact absurd h (by simp)
          · rintro ⟨-, -, h3⟩; exact absurd h3 hgap
    · cases prev with
      | none =>
        rw [validateIntervals, if_pos (by simpa using hab)]
        simp only [isErr, List.forall_mem_cons]
        constructor
        · intro h; exact absurd h (by simp)
        · rintro ⟨⟨h1, -⟩, -, -⟩; exact absurd h1 hab
      | some pm =>
        rw [validateIntervals, if_pos (by simpa using hab)]
        simp only [isErr, List.forall_mem_cons]
        constructor
        · intro h; exact absurd h (by simp)
        · rintro ⟨⟨h1, -⟩, -, -⟩; exact absurd h1 hab

/-- `NewDomain` succeeds exactly when the extra boundary list has even
length, every interval has `min <= max` and adjacent intervals are
separated per `gapOk`. -/
theorem newDomain_ok_iff (lb ub : Int) (ds : List Int) :
    isErr (NewDomain lb ub ds) = false ↔
      (ds.length % 2 = 0 ∧ (∀ p ∈ toPairs ([lb, ub] ++ ds), p.1 ≤ p.2) ∧
       List.Chain' gapOk (toPairs ([lb, ub] ++ ds))) := by
  have hv := validateIntervals_ok_iff 1 none ([lb, ub] ++ ds)
  by_cases hodd : ds.length % 2 = 0
  · rw [NewDomain, if_neg (by omega)]
    cases hval : validateIntervals 1 none ([lb, ub] ++ ds) with
    | error e =>
      rw [hval] at hv
      constructor
      · intro hc; exact absurd hc (by simp [isErr])
      · intro hc
        have : isErr (Except.error e : Except String Unit) = false :=
          hv.mpr ⟨hc.2.1, hc.2.2, trivial⟩
        exact absurd this (by simp [isErr])
    | ok u =>
      rw [hval] at hv
      have hrhs := hv.mp (by simp [isErr])
      exact ⟨fun _ => ⟨hodd, hrhs.1, hrhs.2.1⟩, fun _ => by simp [isErr]⟩
  · rw [NewDomain, if_pos (by omega)]
    constructor
    · intro hc; exact absurd hc (by simp [isErr])
    · intro hc; exact absurd hc.1 hodd

/-- `listLoop` is a pointwise map. -/
theorem listLoop_eq_map (s : Int) (l : List Int) :
    listLoop s l = l.map (fun b => if b = int64Max then b else wrap64 (b - s)) := by
  induction l with
  | nil => rfl
  | cons v rest ih => simp [listLoop, ih]

/-- Negating every coefficient negates the dot product (when each
negation stays in the `int64` range). -/
theorem dot_map_neg (vs : List Int) : ∀ (cs sol : List Int),
    (∀ c ∈ cs, wrap64 (-c) = -c) →
    dot vs (cs.map (fun c => wrap64 (-c))) sol = -(dot vs cs sol) := by
  induction vs with
  | nil => intro cs sol h; cases cs <;> simp [dot]
  | cons v vs ih =>
    intro cs sol h
    cases cs with
    | nil => simp [dot]
    | cons c cs2 =>
      simp only [List.map, dot]
      rw [h c (by simp), ih cs2 sol (fun x hx => h x (by simp [hx]))]
      ring

/-- A fallible variable-creating builder that returns `ok` appended its
one variable at the old end of the variable list. -/
theorem builder_ok_spec (m : Model) (res : Except String Domain) (isl isc : Bool) (nm : String)
    (iv : intVar) (m2 : Model)
    (h : res.map (fun d => m.newIntVarFromDomainInternal d isl isc nm) = .ok (iv, m2)) :
    iv.index = m.Variables.length ∧ m2.Variables = m.Variables ++ [iv.pb] := by
  cases res with
  | error e => exact absurd h (by simp [Except.map])
  | ok d =>
    simp only [Except.map] at h
    injection h with h
    have h1 := congrArg Prod.fst h
    have h2 := congrArg Prod.snd h
    simp only [] at h1 h2
    rw [← h1, ← h2]
    exact ⟨rfl, rfl⟩

/-- A single builder call only ever appends to the variable list. -/
theorem applyOp_extends (m : Model) (op : ModelOp) (m2 : Model)
    (h : applyOp m op = .ok m2) : ∃ ext, m2.Variables = m.Variables ++ ext := by
  cases op with
  | newIntVarFromDomainOp d n =>
    injection h with h
    exact ⟨_, by rw [← h]; rfl⟩
  | newIntVarOp lb ub n =>
    rw [applyOp, Model.NewIntVar] at h
    cases hd : NewDomain lb ub [] with
    | error e => rw [hd] at h; exact absurd h (by simp [Except.map])
    | ok dom =>
      rw [hd] at h
      simp only [Except.map] at h
      injection h with h
      exact ⟨_, by rw [← h]; rfl⟩
  | newConstantOp c n =>
    rw [applyOp, Model.NewConstant] at h
    cases hd : NewDomain c c [] with
    | error e => rw [hd] at h; exact absurd h (by simp [Except.map])
    | ok dom =>
      rw [hd] at h
      simp only [Except.map] at h
      injection h with h
      exact ⟨_, by rw [← h]; rfl⟩
  | newLiteralOp n =>
    rw [applyOp, Model.NewLiteral] at h
    cases hd : NewDomain 0 1 [] with
    | error e => rw [hd] at h; exact absurd h (by simp [Except.map])
    | ok dom =>
      rw [hd] at h
      simp only [Except.map] at h
      injection h with h
      exact ⟨_, by rw [← h]; rfl⟩
  | newIntervalOp s e sz n =>
    injection h with h
    exact ⟨[], by rw [← h]; simp [Model.NewInterval]⟩
  | addConstraintsOp cs =>
    injection h with h
    exact ⟨[], by rw [← h]; simp [Model.AddConstraints, Model.addConstraintsInternal]⟩
  | minimizeOp e =>
    injection h with h
    exact ⟨[], by rw [← h]; simp [Model.Minimize]⟩
  | maximizeOp e =>
    injection h with h
    exact ⟨[], by rw [← h]; simp [Model.Maximize]⟩

/-- A whole sequence of builder calls only ever appends to the variable
list. -/
theorem applyOps_extends (ops : List ModelOp) : ∀ (m m2 : Model),
    applyOps m ops = .ok m2 → ∃ ext, m2.Variables = m.Variables ++ ext := by
  induction ops with
  | nil =>
    intro m m2 h
    injection h with h
    exact ⟨[], by rw [← h]; simp⟩
  | cons op rest ih =>
    intro m m2 h
    rw [applyOps] at h
    cases happ : applyOp m op with
    | error e => rw [happ] at h; exact absurd h (by simp)
    | ok m1 =>
      rw [happ] at h
      obtain ⟨ext1, h1⟩ := applyOp_extends m op m1 happ
      obtain ⟨ext2, h2⟩ := ih m1 m2 h
      exact ⟨ext1 ++ ext2, by rw [h2, h1, List.append_assoc]⟩

/-- The all-same chain has one constraint per adjacent pair. -/
theorem allSameChain_length : ∀ l : List intVar, (allSameChain l).length = l.length - 1
  | [] => rfl
  | [_] => rfl
  | a :: b :: rest => by
    have ih := allSameChain_length (b :: rest)
    simp only [allSameChain, List.length_cons] at *
    omega

/-- The i-th link of the all-same chain is the maximum-equality
constraint with target `l[i]` and single operand `l[i+1]`. -/
theorem allSameChain_get : ∀ (l : List intVar) (i : Nat) (a b : intVar),
    l.get? i = some a → l.get? (i + 1) = some b →
    (allSameChain l).get? i = some (NewMaximumConstraint a [b])
  | [], i, a, b, h1, _ => by simp at h1
  | [_], i, a, b, _, h2 => by
    rcases i with _ | j <;> simp at h2
  | a0 :: b0 :: rest, 0, a, b, h1, h2 => by
    simp at h1 h2
    subst h1; subst h2
    rfl
  | a0 :: b0 :: rest, i + 1, a, b, h1, h2 => by
    have := allSameChain_get (b0 :: rest) i a b (by simpa using h1) (by simpa using h2)
    simpa [allSameChain] using this

/-- A zero shift leaves an in-range boundary list unchanged. -/
theorem list0_in_range : ∀ l : List Int, (∀ x ∈ l, int64Min ≤ x ∧ x ≤ int64Max) →
    Domain.list ⟨l⟩ 0 = l := by
  intro l h
  rw [Domain.list]
  induction l with
  | nil => rfl
  | cons x rest ih =>
    rw [listLoop]
    have hx := h x (by simp)
    by_cases hxm : x = int64Max
    · rw [if_pos hxm, ih (fun y hy => h y (by simp [hy]))]
    · rw [if_neg hxm]
      rw [show x - 0 = x by ring, wrap64_eq_self x hx.1 hx.2,
        ih (fun y hy => h y (by simp [hy]))]

/-- A two-boundary domain with ordered bounds constructs successfully. -/
theorem newDomain_pair_ok (a b : Int) (hab : a ≤ b) :
    NewDomain a b [] = .ok ⟨[a, b]⟩ := by
  rw [NewDomain, if_neg (by simp)]
  have hv : validateIntervals 1 none ([a, b] ++ []) = .ok () := by
    rw [show ([a, b] ++ [] : List Int) = [a, b] by simp, validateIntervals, if_neg (by omega)]
    rfl
  rw [hv]
  simp

/-- C1 (corrected), counterexample to the claim as stated: for the
literal "x" created by `NewLiteral` on a fresh model, `l.Not().Not()`
has the same index as `l` but its name is `"~~x"`, not `l`'s name
`"x"` — each `Not()` prefixes a tilde to the display name, so the name
does not round-trip. -/
theorem claim_C1_counterexample :
    (((NewModel "m").NewLiteral "x").toOption.map
        (fun res => (res.1.Not.Not.name, res.1.name, res.1.Not.Not.index == res.1.index)))
      = some ("~~x", "x", true) := by decide

/-- C1 (amended): a literal created by `Model.NewLiteral` carries index
equal to the variable count at creation (one variable appended);
`Not()` is a pure handle transformation (it takes no model and appends
nothing) yielding index `-(idx+1)`; double negation restores the index
exactly, but the display name comes back as `"~~"` prefixed to the
original name, not the original name. -/
theorem claim_C1 (m : Model) (nm : String) (l : intVar) (m2 : Model)
    (h : m.NewLiteral nm = .ok (l, m2)) :
    l.index = m.Variables.length ∧
    m2.Variables.length = m.Variables.length + 1 ∧
    l.Not.index = -(l.index + 1) ∧
    l.Not.Not.index = l.index ∧
    l.Not.Not.name = "~~" ++ l.name := by
  have hd : NewDomain 0 1 [] = .ok ⟨[0, 1]⟩ := rfl
  rw [Model.NewLiteral, hd] at h
  simp only [Except.map] at h
  injection h with h
  injection h with h1 h2
  subst h1; subst h2
  refine ⟨rfl, by simp [Model.newIntVarFromDomainInternal],
    by simp [intVar.Not, intVar.index]; ring,
    by simp [intVar.Not, intVar.index], ?_⟩
  rw [name_of_not, name_of_not]
  have : "~~" = "~" ++ "~" := rfl
  rw [this, String.append_assoc]

/-- C1 witness: the amended claim instantiated on a fresh model and the
literal name "x". -/
theorem claim_C1_witness :
    (newIntVar ⟨[0, 1]⟩ 0 true false "x").Not.Not.name =
      "~~" ++ (newIntVar ⟨[0, 1]⟩ 0 true false "x").name :=
  (claim_C1 (NewModel "m") "x" (newIntVar ⟨[0, 1]⟩ 0 true false "x") _ rfl).2.2.2.2

/-- C2: `Maximize(e)` writes exactly the objective `Minimize(e)` would
write except that every coefficient is negated (`int64` negation), the
offset is negated, and the scaling factor is `-1`; under the
spec-modelled engine objective report, reading the objective value of
the maximize encoding at any solution yields the original (non-negated)
value of `e` there.  The coefficient-range hypothesis discharges the one
`int64` negation that could wrap (`math.MinInt64`). -/
theorem claim_C2 (m : Model) (e : linearExpr) (sol : List Int)
    (hc : ∀ c ∈ e.coeffs, int64Min < c ∧ c ≤ int64Max) :
    (m.Minimize e).objective =
      some { vars := e.vars, coeffs := e.coeffs, offset := e.offset, scalingFactor := 0 } ∧
    (m.Maximize e).objective =
      some { vars := e.vars, coeffs := e.coeffs.map (fun c => wrap64 (-c)),
             offset := -e.offset, scalingFactor := -1 } ∧
    ((m.Maximize e).objective).map (fun o => engineObjectiveValue o sol) =
      some (evalLinearExpr e sol) ∧
    ((m.Minimize e).objective).map (fun o => engineObjectiveValue o sol) =
      some (evalLinearExpr e sol) := by
  refine ⟨rfl, rfl, ?_, ?_⟩
  · have hneg : ∀ c ∈ e.coeffs, wrap64 (-c) = -c := by
      intro c hcm
      have := hc c hcm
      apply wrap64_eq_self <;> unfold int64Min int64Max at * <;> omega
    show some (engineObjectiveValue _ sol) = some (evalLinearExpr e sol)
    congr 1
    simp only [engineObjectiveValue, Model.toObjectiveProto,
      if_neg (by norm_num : (-1 : Int) ≠ 0)]
    rw [dot_map_neg _ _ _ hneg]
    rw [evalLinearExpr]
    ring
  · rfl

/-- C2 witness: maximize `2x + 5` on a fresh model; at the solution
`x = 3` the engine-reported objective value is `11`, the original value
of the expression. -/
theorem claim_C2_witness :
    ((NewModel "w").Maximize (NewLinearExpr [newIntVar ⟨[0, 10]⟩ 0 false false "x"] [2] 5)).objective.map
        (fun o => engineObjectiveValue o [3]) =
      some (evalLinearExpr (NewLinearExpr [newIntVar ⟨[0, 10]⟩ 0 false false "x"] [2] 5) [3]) :=
  (claim_C2 (NewModel "w") (NewLinearExpr [newIntVar ⟨[0, 10]⟩ 0 false false "x"] [2] 5) [3]
    (by decide)).2.2.1

/-- C3: `NewDomain(lb, ub, ds...)` fails exactly when the extra boundary
list has odd length, some interval has `min > max`, or some adjacent
interval pair violates `max_i + 1 < min_(i+1)` (the `+ 1` being Go
`int64` addition); on success the constructed intervals satisfy both
invariants.  The concrete conjuncts show the failure messages identify
the offending interval(s) by ordinal position ("1st", "2nd") and show
the bounds, and that `[0,2]` followed by `[3,4]` fails with the
1st/2nd-pair message. -/
theorem claim_C3 (lb ub : Int) (ds : List Int) :
    (isErr (NewDomain lb ub ds) = true ↔
      (ds.length % 2 ≠ 0 ∨
       ¬ ((∀ p ∈ toPairs ([lb, ub] ++ ds), p.1 ≤ p.2) ∧
          List.Chain' gapOk (toPairs ([lb, ub] ++ ds))))) ∧
    (∀ dom, NewDomain lb ub ds = .ok dom →
       dom.intervals = [lb, ub] ++ ds ∧
       (∀ p ∈ toPairs dom.intervals, p.1 ≤ p.2) ∧
       List.Chain' gapOk (toPairs dom.intervals)) ∧
    (ds.length % 2 ≠ 0 →
      NewDomain lb ub ds = .error "malformed domain: expected even number of interval boundaries") ∧
    NewDomain 0 2 [3, 4] =
      .error "malformed domain: expected 1st interval's max + 1 <  2nd interval's curMin, found [..., 2] [3, ...]" ∧
    NewDomain 2 1 [] =
      .error "malformed domain: expected min <= max for 1st interval, found [2, 1]" := by
  have hok := newDomain_ok_iff lb ub ds
  refine ⟨?_, ?_, ?_, rfl, rfl⟩
  · constructor
    · intro hc
      by_contra hrhs
      push_neg at hrhs
      have := hok.mpr ⟨by omega, hrhs.2.1, hrhs.2.2⟩
      rw [hc] at this
      exact absurd this (by simp)
    · intro hc
      cases he : isErr (NewDomain lb ub ds) with
      | true => rfl
      | false =>
        have := hok.mp he
        rcases hc with hc | hc
        · exact absurd this.1 hc
        · exact absurd ⟨this.2.1, this.2.2⟩ hc
  · intro dom hdom
    have he : isErr (NewDomain lb ub ds) = false := by rw [hdom]; rfl
    have hrhs := hok.mp he
    rw [NewDomain] at hdom
    by_cases hodd : ds.length % 2 ≠ 0
    · rw [if_pos hodd] at hdom; exact absurd hdom (by simp)
    · rw [if_neg hodd] at hdom
      cases hval : validateIntervals 1 none ([lb, ub] ++ ds) with
      | error e => rw [hval] at hdom; exact absurd hdom (by simp)
      | ok u =>
        rw [hval] at hdom
        injection hdom with hdom
        subst hdom
        exact ⟨rfl, hrhs.2.1, hrhs.2.2⟩
  · intro hodd
    rw [NewDomain, if_pos hodd]

/-- C3 witness: the success invariants instantiated on the accepted
domain `[0,5] [8,9]`. -/
theorem claim_C3_witness :
    (∀ p ∈ toPairs ([0, 5] ++ [8, 9]), p.1 ≤ p.2) ∧
    List.Chain' gapOk (toPairs ([0, 5] ++ [8, 9])) :=
  ((claim_C3 0 5 [8, 9]).2.1 ⟨[0, 5, 8, 9]⟩ rfl).2

/-- C4: `BooleanValue` returns `Value(l.Not()) == 0` for a negated
handle and `Value(l) == 1` otherwise; whenever the solution entry at the
literal's underlying slot is 0 or 1, `BooleanValue(l)` and
`BooleanValue(l.Not())` are complementary, and a negated literal reads
its positive counterpart's slot (index `-idx - 1`), never a separate
slot. -/
theorem claim_C4 (r : Result) (l : intVar) (v : Int)
    (hv : (if l.isNegated then r.Value l.Not else r.Value l) = some v)
    (h01 : v = 0 ∨ v = 1) :
    (l.isNegated = true →
      r.BooleanValue l = some (v == 0) ∧ r.BooleanValue l.Not = some (v == 1)) ∧
    (l.isNegated = false →
      r.BooleanValue l = some (v == 1) ∧ r.BooleanValue l.Not = some (v == 0)) ∧
    (∃ b, r.BooleanValue l = some b ∧ r.BooleanValue l.Not = some (!b)) ∧
    (l.isNegated = true →
      r.BooleanValue l = (r.solution.get? (-l.index - 1).toNat).map (fun w => w == 0)) := by
  by_cases hneg : l.idx < 0
  · have hn : l.isNegated = true := by simp [intVar.isNegated, hneg]
    rw [if_pos (by simp [intVar.isNegated, hneg])] at hv
    have hnn : l.Not.isNegated = false := by
      simp [intVar.isNegated, not_idx]; omega
    have hvn : r.Value l.Not = r.solution.get? (-l.index - 1).toNat := by
      rw [Result.Value, if_neg (by simp [intVar.index, not_idx]; omega)]
      simp [intVar.index, not_idx]
    have hbl : r.BooleanValue l = some (v == 0) := by
      rw [Result.BooleanValue, if_pos (by simp [intVar.isNegated, hneg]), hv]; rfl
    have hbn : r.BooleanValue l.Not = some (v == 1) := by
      rw [Result.BooleanValue, if_neg (by simp [hnn]), hv]; rfl
    refine ⟨fun _ => ⟨hbl, hbn⟩, fun hc => by rw [hn] at hc; exact absurd hc (by simp), ?_, ?_⟩
    · refine ⟨v == 0, hbl, ?_⟩
      rw [hbn]
      rcases h01 with h | h <;> subst h <;> rfl
    · intro _
      rw [Result.BooleanValue, if_pos (by simp [intVar.isNegated, hneg]), hvn]
  · have hn : l.isNegated = false := by simp [intVar.isNegated]; omega
    rw [if_neg (by simp [hn])] at hv
    have hnn : l.Not.isNegated = true := by
      simp [intVar.isNegated, not_idx]; omega
    have hveq : r.Value l.Not.Not = r.Value l := value_congr r _ _ (not_not_idx l)
    have hbl : r.BooleanValue l = some (v == 1) := by
      rw [Result.BooleanValue, if_neg (by simp [hn]), hv]; rfl
    have hbn : r.BooleanValue l.Not = some (v == 0) := by
      rw [Result.BooleanValue, if_pos (by simp [hnn]), hveq, hv]; rfl
    refine ⟨fun hc => by rw [hn] at hc; exact absurd hc (by simp),
      fun _ => ⟨hbl, hbn⟩, ?_, fun hc => by rw [hn] at hc; exact absurd hc (by simp)⟩
    refine ⟨v == 1, hbl, ?_⟩
    rw [hbn]
    rcases h01 with h | h <;> subst h <;> rfl

/-- C4 witness: a positive literal at slot 0 with solution entry 1 gives
complementary boolean values for itself and its negation. -/
theorem claim_C4_witness :
    ∃ b, Result.BooleanValue ⟨4, [1, 0], 0⟩ (newIntVar ⟨[0, 1]⟩ 0 true false "a") = some b ∧
      Result.BooleanValue ⟨4, [1, 0], 0⟩ (newIntVar ⟨[0, 1]⟩ 0 true false "a").Not = some (!b) :=
  (claim_C4 ⟨4, [1, 0], 0⟩ (newIntVar ⟨[0, 1]⟩ 0 true false "a") 1 (by decide) (by decide)).2.2.1

/-- C5 (corrected), counterexample to the claim as stated: for
`k = 2 != 1` and a single literal, `NewAtLeastKConstraint` does not
produce a linear constraint at all — it panics, because
`NewDomain(2, 1)` is malformed (`min > max`). -/
theorem claim_C5_counterexample :
    NewAtLeastKConstraint 2 [newIntVar ⟨[0, 1]⟩ 0 true false "a"] =
      .error "malformed domain: expected min <= max for 1st interval, found [2, 1]" := rfl

/-- C5 (amended): `k == 1` produces exactly the At-Most-One, Boolean-Or
and Exactly-One primitive encodings (hence accepts exactly the same
solutions as those primitives); for `k != 1`, and provided the bound
pair forms a valid domain (`0 ≤ k` for at-most-k, `k ≤ len(lits)` for
at-least-k, always for exactly-k; in-range hypotheses keep the zero
shift exact), the result is the linear constraint over the sum of the
literals with domain `[0,k]`, `[k,len]`, `[k,k]` respectively. -/
theorem claim_C5 (k : Int) (lits : List intVar) :
    (NewAtMostKConstraint 1 lits = .ok (newAtMostOneConstraint lits) ∧
     NewAtLeastKConstraint 1 lits = .ok (NewBooleanOrConstraint lits) ∧
     NewExactlyKConstraint 1 lits = .ok (newExactlyOneConstraint lits)) ∧
    (k ≠ 1 → 0 ≤ k → k ≤ int64Max →
      NewAtMostKConstraint k lits =
        .ok (mkConstraint (.linear (indexes lits) (lits.map fun _ => 1) [0, k]))) ∧
    (k ≠ 1 → int64Min ≤ k → k ≤ (lits.length : Int) → (lits.length : Int) ≤ int64Max →
      NewAtLeastKConstraint k lits =
        .ok (mkConstraint (.linear (indexes lits) (lits.map fun _ => 1) [k, (lits.length : Int)]))) ∧
    (k ≠ 1 → int64Min ≤ k → k ≤ int64Max →
      NewExactlyKConstraint k lits =
        .ok (mkConstraint (.linear (indexes lits) (lits.map fun _ => 1) [k, k]))) := by
  have hmaxpos : (0 : Int) ≤ int64Max := by unfold int64Max; omega
  have hminneg : int64Min ≤ (0 : Int) := by unfold int64Min; omega
  refine ⟨⟨rfl, rfl, rfl⟩, ?_, ?_, ?_⟩
  · intro hk h0 hmax
    rw [NewAtMostKConstraint, if_neg hk, newDomain_pair_ok 0 k h0]
    simp only [Except.map]
    rw [NewLinearConstraint]
    congr 1
    rw [show (Sum lits).offset = 0 from rfl]
    rw [list0_in_range [0, k] (by
      intro x hx
      simp at hx
      rcases hx with h | h <;> subst h <;> constructor <;> omega)]
    rfl
  · intro hk hmin hlen hlenmax
    rw [NewAtLeastKConstraint, if_neg hk, newDomain_pair_ok k (lits.length : Int) hlen]
    simp only [Except.map]
    rw [NewLinearConstraint]
    congr 1
    rw [show (Sum lits).offset = 0 from rfl]
    rw [list0_in_range [k, (lits.length : Int)] (by
      intro x hx
      simp at hx
      rcases hx with h | h <;> subst h <;> exact ⟨by omega, by omega⟩)]
    rfl
  · intro hk hmin hmax
    rw [NewExactlyKConstraint, if_neg hk, newDomain_pair_ok k k le_rfl]
    simp only [Except.map]
    rw [NewLinearConstraint]
    congr 1
    rw [show (Sum lits).offset = 0 from rfl]
    rw [list0_in_range [k, k] (by
      intro x hx
      simp at hx
      subst hx
      exact ⟨hmin, hmax⟩)]
    rfl

/-- C5 witness: `k = 0` on one literal yields the linear constraint with
domain `[0,0]`. -/
theorem claim_C5_witness :
    NewAtMostKConstraint 0 [newIntVar ⟨[0, 1]⟩ 0 true false "a"] =
      .ok (mkConstraint (.linear (indexes [newIntVar ⟨[0, 1]⟩ 0 true false "a"])
        ([newIntVar ⟨[0, 1]⟩ 0 true false "a"].map fun _ => 1) [0, 0])) :=
  (claim_C5 0 [newIntVar ⟨[0, 1]⟩ 0 true false "a"]).2.1 (by decide) (by decide) (by decide)

/-- C6: `domain.list(s)` maps every boundary `b` to `b - s` (Go `int64`
subtraction; literally `b - s` whenever that difference is in the
`int64` range), except boundaries equal to `math.MaxInt64`, which pass
through unshifted; and `NewLinearConstraint(e, d)` encodes the domain as
`d.list(e.offset())`. -/
theorem claim_C6 (d : Domain) (s : Int) :
    (∀ i : Nat, (d.list s).get? i =
      (d.intervals.get? i).map (fun b => if b = int64Max then b else wrap64 (b - s))) ∧
    (∀ i, d.intervals.get? i = some int64Max → (d.list s).get? i = some int64Max) ∧
    (∀ i b, d.intervals.get? i = some b → b ≠ int64Max →
      int64Min ≤ b - s → b - s ≤ int64Max → (d.list s).get? i = some (b - s)) ∧
    (∀ e : linearExpr, NewLinearConstraint e d =
      mkConstraint (.linear e.vars e.coeffs (d.list e.offset))) := by
  have hmap : ∀ i : Nat, (d.list s).get? i =
      (d.intervals.get? i).map (fun b => if b = int64Max then b else wrap64 (b - s)) := by
    intro i
    rw [Domain.list, listLoop_eq_map]
    simp [List.getElem?_map, List.get?_eq_getElem?]
  refine ⟨hmap, ?_, ?_, fun _ => rfl⟩
  · intro i h
    rw [hmap i, h]
    rfl
  · intro i b h hne h1 h2
    rw [hmap i, h]
    show some (if b = int64Max then b else wrap64 (b - s)) = some (b - s)
    rw [if_neg hne, wrap64_eq_self _ h1 h2]

/-- C6 witness: shifting `[1,5]` by 2 shifts the first boundary to
`1 - 2 = -1`. -/
theorem claim_C6_witness :
    (Domain.list ⟨[1, 5]⟩ 2).get? 0 = some (1 - 2) :=
  (claim_C6 ⟨[1, 5]⟩ 2).2.2.1 0 1 rfl (by decide) (by decide) (by decide)

/-- C7: each of `NewIntVarFromDomain`, `NewIntVar`, `NewConstant` and
`NewLiteral` appends exactly one variable whose index is the variable
count at call time; and under any further sequence of builder calls
(variables, intervals, constraints, objectives) the variable list only
grows by appending, so the slot of an already-created variable — and
hence its reported index — never changes (no removal, no reuse). -/
theorem claim_C7 :
    (∀ (m : Model) (d : Domain) (nm : String),
      (m.NewIntVarFromDomain d nm).1.index = m.Variables.length ∧
      (m.NewIntVarFromDomain d nm).2.Variables =
        m.Variables ++ [(m.NewIntVarFromDomain d nm).1.pb]) ∧
    (∀ (m : Model) (lb ub : Int) (nm : String) (iv : intVar) (m2 : Model),
      m.NewIntVar lb ub nm = .ok (iv, m2) →
        iv.index = m.Variables.length ∧ m2.Variables = m.Variables ++ [iv.pb]) ∧
    (∀ (m : Model) (c : Int) (nm : String) (iv : intVar) (m2 : Model),
      m.NewConstant c nm = .ok (iv, m2) →
        iv.index = m.Variables.length ∧ m2.Variables = m.Variables ++ [iv.pb]) ∧
    (∀ (m : Model) (nm : String) (iv : intVar) (m2 : Model),
      m.NewLiteral nm = .ok (iv, m2) →
        iv.index = m.Variables.length ∧ m2.Variables = m.Variables ++ [iv.pb]) ∧
    (∀ (m : Model) (ops : List ModelOp) (m2 : Model),
      applyOps m ops = .ok m2 → ∃ ext, m2.Variables = m.Variables ++ ext) ∧
    (∀ (m : Model) (ops : List ModelOp) (m2 : Model) (i : Nat),
      applyOps m ops = .ok m2 → i < m.Variables.length →
        m2.Variables.get? i = m.Variables.get? i) := by
  refine ⟨fun m d nm => ⟨rfl, rfl⟩, ?_, ?_, ?_,
    fun m ops m2 h => applyOps_extends ops m m2 h, ?_⟩
  · intro m lb ub nm iv m2 h
    exact builder_ok_spec m (NewDomain lb ub []) false false nm iv m2 h
  · intro m c nm iv m2 h
    exact builder_ok_spec m (NewDomain c c []) false true nm iv m2 h
  · intro m nm iv m2 h
    exact builder_ok_spec m (NewDomain 0 1 []) true false nm iv m2 h
  · intro m ops m2 i h hi
    obtain ⟨ext, hext⟩ := applyOps_extends ops m m2 h
    rw [hext]
    exact List.get?_append hi

/-- C7 witness: a literal then a constraint then another literal — slot
0 still holds the first literal's proto. -/
theorem claim_C7_witness :
    ∃ m2, applyOps ((NewModel "w").NewIntVarFromDomain ⟨[0, 1]⟩ "a").2
        [.addConstraintsOp [[NewAllDifferentConstraint []]], .newLiteralOp "b"] = .ok m2 ∧
      m2.Variables.get? 0 = ((NewModel "w").NewIntVarFromDomain ⟨[0, 1]⟩ "a").2.Variables.get? 0 := by
  have hok : isErr (applyOps ((NewModel "w").NewIntVarFromDomain ⟨[0, 1]⟩ "a").2
      [.addConstraintsOp [[NewAllDifferentConstraint []]], .newLiteralOp "b"]) = false := by decide
  cases hc : applyOps ((NewModel "w").NewIntVarFromDomain ⟨[0, 1]⟩ "a").2
      [.addConstraintsOp [[NewAllDifferentConstraint []]], .newLiteralOp "b"] with
  | error e =>
    rw [hc] at hok
    exact absurd hok (by simp [isErr])
  | ok m2 =>
    exact ⟨m2, rfl, claim_C7.2.2.2.2.2 _ _ _ 0 hc (by decide)⟩

/-- C8 (corrected), counterexample to the claim as stated: for two
variables at indexes 0 and 1, the single underlying proto of
`NewAllSameConstraint` targets `vars[0]` with operand list `[1]` — the
encoding of `vars[0] == max(vars[1])` — not the encoding of
`vars[0] == max(vars[0], vars[1])` (operands `[0, 1]`); and the two are
not even equivalent: at the assignment `x = 1, y = 0` the claimed
constraint holds while the actual one does not. -/
theorem claim_C8_counterexample :
    NewAllSameConstraint
        [newIntVar ⟨[0, 2]⟩ 0 false false "x", newIntVar ⟨[0, 2]⟩ 1 false false "y"] =
      [mkConstraint (.intMax 0 [1])] ∧
    [mkConstraint (ConstraintOneof.intMax 0 [1])] ≠
      [mkConstraint (.intMax 0 [0, 1])] ∧
    intMaxSat [1, 0] 0 [0, 1] ∧
    ¬ intMaxSat [1, 0] 0 [1] := by
  refine ⟨rfl, by decide, by decide, by decide⟩

/-- C8 (amended): `NewAllSameConstraint` over `n` variables flattens to
exactly `n - 1` constraint protos, the i-th being the maximum-equality
constraint with target `vars[i-1]` and the single operand `vars[i]`
(stating `vars[i-1] == max(vars[i])`, i.e. `vars[i-1] == vars[i]`). -/
theorem claim_C8 (vars : List intVar) :
    (NewAllSameConstraint vars).length = vars.length - 1 ∧
    (∀ (i : Nat) (a b : intVar), vars.get? i = some a → vars.get? (i + 1) = some b →
      (NewAllSameConstraint vars).get? i = some (NewMaximumConstraint a [b])) :=
  ⟨allSameChain_length vars, fun i a b h1 h2 => allSameChain_get vars i a b h1 h2⟩

/-- C8 witness: on three variables, the second chain link is the
maximum-equality constraint pairing the second and third. -/
theorem claim_C8_witness :
    (NewAllSameConstraint
        [newIntVar ⟨[0, 2]⟩ 0 false false "x", newIntVar ⟨[0, 2]⟩ 1 false false "y",
         newIntVar ⟨[0, 2]⟩ 2 false false "z"]).get? 1 =
      some (NewMaximumConstraint (newIntVar ⟨[0, 2]⟩ 1 false false "y")
        [newIntVar ⟨[0, 2]⟩ 2 false false "z"]) :=
  (claim_C8 _).2 1 _ _ rfl rfl

/-- C9: option validation fails exactly when enumeration is requested
together with more than one search worker, with the error "cannot
enumerate with parallelism > 1"; in that case the (spec-modelled)
options-consuming solve returns the error without invoking the engine
(for every engine function), and otherwise validation succeeds and the
engine is invoked. -/
theorem claim_C9 (o : options) :
    (isErr o.validate = true ↔
      o.params.enumerateAllSolutions = true ∧ o.params.numSearchWorkers > 1) ∧
    (o.params.enumerateAllSolutions = true ∧ o.params.numSearchWorkers > 1 →
      o.validate = .error "cannot enumerate with parallelism > 1" ∧
      ∀ (engine : Model → Result) (m : Model),
        solveWithOptions engine m o = .error "cannot enumerate with parallelism > 1") ∧
    (¬ (o.params.enumerateAllSolutions = true ∧ o.params.numSearchWorkers > 1) →
      o.validate = .ok true ∧
      ∀ (engine : Model → Result) (m : Model),
        solveWithOptions engine m o = .ok (engine m)) := by
  by_cases hc : o.params.enumerateAllSolutions = true ∧ o.params.numSearchWorkers > 1
  · have hval : o.validate = .error "cannot enumerate with parallelism > 1" := by
      rw [options.validate, if_pos hc]
    refine ⟨?_, fun _ => ⟨hval, fun engine m => ?_⟩, fun hcontra => absurd hc hcontra⟩
    · simp only [hval, isErr]
      exact ⟨fun _ => hc, fun _ => trivial⟩
    · rw [solveWithOptions, hval]
  · have hval : o.validate = .ok true := by rw [options.validate, if_neg hc]
    refine ⟨?_, fun h => absurd h hc, fun _ => ⟨hval, fun engine m => ?_⟩⟩
    · simp only [hval, isErr]
      exact ⟨fun h => absurd h (by simp), fun h => absurd h hc⟩
    · rw [solveWithOptions, hval]

/-- C9 witness: enumeration with two workers is rejected with the
descriptive error before any engine function is consulted. -/
theorem claim_C9_witness :
    solveWithOptions (fun _ => ⟨0, [], 0⟩) (NewModel "w") ⟨⟨true, 2⟩⟩ =
      .error "cannot enumerate with parallelism > 1" :=
  ((claim_C9 ⟨⟨true, 2⟩⟩).2.1 (by decide)).2 _ _

/-- C10: `OnlyEnforceIf` on a plain constraint of any kind (the
quantifier ranges over every oneof variant, including all-different,
boolean-xor, element and the arithmetic constraints) never fails: it
unconditionally overwrites the encoded enforcement-literal index list
with the given literals' indexes and returns the constraint otherwise
unchanged; the sole exception is an interval, whose `OnlyEnforceIf`
panics exactly when given more than one literal. -/
theorem claim_C10 :
    (∀ (c : ConstraintProto) (lits : List intVar),
      (c.OnlyEnforceIf lits).enforcementLiteral = indexes lits ∧
      (c.OnlyEnforceIf lits).oneof = c.oneof ∧
      (c.OnlyEnforceIf lits).name = c.name) ∧
    (∀ (i : interval) (lits : List intVar),
      (isErr (i.OnlyEnforceIf lits) = true ↔ lits.length > 1) ∧
      (lits.length > 1 →
        i.OnlyEnforceIf lits = .error "intervals can only be enforced with a single literal") ∧
      (∀ i2, i.OnlyEnforceIf lits = .ok i2 →
        i2.pb.enforcementLiteral = indexes lits ∧ i2.pb.oneof = i.pb.oneof)) := by
  refine ⟨fun c lits => ⟨rfl, rfl, rfl⟩, fun i lits => ?_⟩
  by_cases hl : lits.length > 1
  · have herr : i.OnlyEnforceIf lits =
        .error "intervals can only be enforced with a single literal" := by
      rw [interval.OnlyEnforceIf, if_pos hl]
    refine ⟨⟨fun _ => hl, fun _ => by simp [herr, isErr]⟩, fun _ => herr, ?_⟩
    intro i2 h
    rw [herr] at h
    exact absurd h (by simp)
  · have hok : i.OnlyEnforceIf lits = .ok { i with
        pb := { i.pb with enforcementLiteral := indexes lits },
        enforcement := if lits.length = 1 then lits.head? else i.enforcement } := by
      rw [interval.OnlyEnforceIf, if_neg hl]
    refine ⟨⟨fun hcontra => ?_, fun h => absurd h hl⟩, fun h => absurd h hl, ?_⟩
    · rw [hok] at hcontra
      exact absurd hcontra (by simp [isErr])
    · intro i2 h
      rw [hok] at h
      injection h with h
      rw [← h]
      exact ⟨rfl, rfl⟩

/-- C10 witness: an interval given two enforcement literals panics. -/
theorem claim_C10_witness :
    isErr ((newInterval (newIntVar ⟨[0, 5]⟩ 0 false false "s") (newIntVar ⟨[0, 5]⟩ 1 false false "e")
        (newIntVar ⟨[0, 5]⟩ 2 false false "sz") 0 "itv").OnlyEnforceIf
      [newIntVar ⟨[0, 1]⟩ 3 true false "a", newIntVar ⟨[0, 1]⟩ 4 true false "b"]) = true :=
  (claim_C10.2 _ _).1.mpr (by decide)

end Solver
